import Mathlib

/-!
Verification of the F1 dashboard analytical core against its sources.

The embedding follows the Python sources:
* `src/utils/data_loading.py` — `get_lap_data` (the Lap Record Normalizer,
  including its nested `calculate_tyre_age`), `get_strategy_data`;
* `src/utils/plotting.py` — `plot_gap_analysis` (Gap/Delta Analyzer,
  including reference-driver resolution), `create_summary_metrics`;
* `src/app.py` — the tyre-degradation simulation block (driver-profile
  adjustment, degradation statistics, confidence band) and the strategy
  statistics (pit-stop count).

Lap times are embedded as rationals; a missing value (pandas `NaN`) is
`Option.none`.  Pandas operations are translated to list operations:
`dropna` is a filter, `groupby().transform(min)` is a per-group minimum,
`.iloc[0]` of a filtered frame is `List.find?`, `value_counts().index[0]`
and `idxmin()` are argmax/argmin with a first-occurrence tie-break (pandas
tie order among equal values is implementation-defined; no theorem below
depends on the tie identity).
-/

/-! ### Lap Record Normalizer (`get_lap_data`, data_loading.py lines 72–130) -/

/-- A raw per-lap row as supplied by the session provider: lap number,
optional lap time, optional compound, optional position. -/

structure RawLap where
  driver : String
  lap : ℕ
  lapTime : Option ℚ
  compound : Option String
  position : Option ℕ
  deriving DecidableEq, Repr

/-- A normalized lap record produced by `get_lap_data`.  Every record has a
recorded lap time (rows without one are removed by the `dropna` at
data_loading.py line 94). -/

structure LapRecord where
  driver : String
  lap : ℕ
  lapTimeSeconds : ℚ
  compound : Option String
  position : Option ℕ
  isPersonalBest : Bool
  gapToFastest : ℚ
  tyreAge : ℕ
  deriving DecidableEq, Repr

/-- Minimum of a list of rationals, as pandas `.min()` on a nonempty series;
the `0` default is never consulted by the callers below. -/

def minQ : List ℚ → ℚ
  | [] => 0
  | x :: xs => xs.foldl min x

/-- The scan inside `calculate_tyre_age` (data_loading.py lines 108–115):
`prev` is `previous_compound`, `age` is `current_age`.  The age is reset to 1
when the compound is missing (`pd.isna`) or differs from the previous row;
a pandas `NaN` stored in `previous_compound` compares unequal to everything,
which the `Option` model reproduces because a missing current compound is
already caught by the first disjunct. -/

def tyreAgeGo : Option String → ℕ → List (Option String) → List ℕ
  | _, _, [] => []
  | prev, age, c :: cs =>
    let a := if c = none ∨ prev ≠ c then 1 else age + 1
    a :: tyreAgeGo c a cs

/-- `calculate_tyre_age` applied to one driver's compound column, in row
order; `previous_compound` starts as Python `None`. -/

def calculateTyreAge (cs : List (Option String)) : List ℕ :=
  tyreAgeGo none 0 cs

/-- `_session.laps.pick_drivers(driver)`: the session rows of one driver. -/

def pickDriver (s : List RawLap) (d : String) : List RawLap :=
  s.filter (fun r => r.driver == d)

/-- The rows surviving `dropna(subset=['LapTime'])`, paired with their
recorded time (`LapTimeSeconds`). -/

def validPairs (combined : List RawLap) : List (RawLap × ℚ) :=
  combined.filterMap (fun r => r.lapTime.map (fun t => (r, t)))

/-- One driver group of the valid rows (pandas `groupby('Driver')`). -/

def driverGroup (valid : List (RawLap × ℚ)) (d : String) : List (RawLap × ℚ) :=
  valid.filter (fun p => p.1.driver == d)

/-- Scan for `uniqueKeys`: keep a key the first time it is met. -/

def uniqueKeysAux (seen : List String) : List String → List String
  | [] => []
  | x :: xs =>
    if x ∈ seen then uniqueKeysAux seen xs
    else x :: uniqueKeysAux (x :: seen) xs

/-- First occurrences of each key, in order of appearance (pandas
`Series.unique`). -/

def uniqueKeys (l : List String) : List String :=
  uniqueKeysAux [] l

/-- Per-group derivation of `get_lap_data`: personal best against the group
minimum (line 98), gap to the session-wide fastest time (line 99), tyre age
from the compound scan (lines 102–120). -/

def normalizeGroup (sessionMin : ℚ) (grp : List (RawLap × ℚ)) : List LapRecord :=
  let dmin := minQ (grp.map (fun p => p.2))
  let ages := calculateTyreAge (grp.map (fun p => p.1.compound))
  (grp.zip ages).map (fun pr =>
    { driver := pr.1.1.driver
      lap := pr.1.1.lap
      lapTimeSeconds := pr.1.2
      compound := pr.1.1.compound
      position := pr.1.1.position
      isPersonalBest := pr.1.2 == dmin
      gapToFastest := pr.1.2 - sessionMin
      tyreAge := pr.2 })

/-- `get_lap_data(_session, drivers)` (data_loading.py lines 72–130): empty
result on a missing session or an empty driver list; otherwise concatenate
the selected drivers' rows, drop rows without a lap time, and derive the
per-lap fields groupwise. -/

def getLapData (session : Option (List RawLap)) (drivers : List String) :
    List LapRecord :=
  match session with
  | none => []
  | some s =>
    if drivers.isEmpty then []
    else
      let combined := (drivers.map (pickDriver s)).flatten
      let valid := validPairs combined
      let sessionMin := minQ (valid.map (fun p => p.2))
      ((uniqueKeys (valid.map (fun p => p.1.driver))).map
        (fun d => normalizeGroup sessionMin (driverGroup valid d))).flatten

/-! #### Helper lemmas for the Normalizer -/

/-! ### Claim theorems for the Normalizer -/

/-- A two-row session for driver A: lap 1 has a recorded time, lap 2 has
none. -/

def exMissingTime : List RawLap :=
  [{ driver := "A", lap := 1, lapTime := some 90, compound := some ("SOFT"),
     position := some 1 },
   { driver := "A", lap := 2, lapTime := none, compound := some ("SOFT"),
     position := some 1 }]

/-! ### Gap/Delta Analyzer (`plot_gap_analysis`, plotting.py lines 357–489)

The analyzer consumes normalized lap rows, so every row carries a recorded
time (`LapTimeSeconds`); only the fields the function reads are modelled. -/

/-- A normalized row as seen by `plot_gap_analysis`: driver, lap number,
lap time in seconds, and optional position. -/

structure GRow where
  driver : String
  lap : ℕ
  time : ℚ
  position : Option ℕ
  deriving DecidableEq, Repr

/-- `lap_data['Driver'].unique()` (plotting.py line 391). -/

def gDrivers (rows : List GRow) : List String :=
  uniqueKeys (rows.map (fun r => r.driver))

/-- Whether `lap_data.dropna(subset=['Position'])` is nonempty (line 395;
an absent `Position` column behaves the same as an all-null one: both take
the mean-time branch). -/

def hasPositionData (rows : List GRow) : Bool :=
  rows.any (fun r => r.position.isSome)

/-- Whether any row has `Position == 1`, i.e. `leader_counts` is nonempty
(line 397). -/

def hasLeader (rows : List GRow) : Bool :=
  rows.any (fun r => r.position == some 1)

/-- Number of laps a driver spent in position 1 (`value_counts` source,
line 397). -/

def p1Count (rows : List GRow) (d : String) : ℕ :=
  (rows.filter (fun r => r.driver == d && r.position == some 1)).length

/-- `lap_data.groupby('Driver')[time_col].mean()` for one driver
(lines 400–404). -/

def meanTime (rows : List GRow) (d : String) : ℚ :=
  let ts := (rows.filter (fun r => r.driver == d)).map (fun r => r.time)
  ts.sum / ts.length

/-- Argmax with a first-occurrence tie-break, as `value_counts().index[0]`
keeps a driver holding the maximal count. -/

def argmaxBy (f : String → ℕ) : String → List String → String
  | best, [] => best
  | best, d :: ds => argmaxBy f (if f best < f d then d else best) ds

/-- Argmin with a first-occurrence tie-break, as `Series.idxmin()` keeps a
driver holding the minimal mean. -/

def argminBy (f : String → ℚ) : String → List String → String
  | best, [] => best
  | best, d :: ds => argminBy f (if f d < f best then d else best) ds

/-- The automatic reference-driver choice of `plot_gap_analysis`
(plotting.py lines 393–407): with position data and at least one lap led,
the driver leading the most laps; with position data but no lap led at
all, `available_drivers[0]`; without position data, the driver with the
lowest mean lap time. -/

def autoReference (rows : List GRow) : String :=
  if hasPositionData rows then
    if hasLeader rows then
      match gDrivers rows with
      | [] => ""
      | d :: ds => argmaxBy (p1Count rows) d ds
    else (gDrivers rows).headD ("")
  else
    match gDrivers rows with
    | [] => ""
    | d :: ds => argminBy (meanTime rows) d ds

/-- Reference resolution (lines 393–409): a supplied reference present in
the data is used as is; otherwise the automatic choice applies. -/

def resolveReference (supplied : Option String) (rows : List GRow) : String :=
  match supplied with
  | none => autoReference rows
  | some r => if r ∈ gDrivers rows then r else autoReference rows

/-- Reference resolution as the specification words it: supplied if
present; else the driver leading the most laps if any position data
exists and someone led; else the driver with the lowest mean lap time;
else the first driver.  Written from the claim only, for comparison with
`resolveReference`. -/

def resolveReferenceClaim (supplied : Option String) (rows : List GRow) :
    String :=
  let auto :=
    if hasPositionData rows && hasLeader rows then
      match gDrivers rows with
      | [] => ""
      | d :: ds => argmaxBy (p1Count rows) d ds
    else
      match gDrivers rows with
      | [] => (gDrivers rows).headD ("")
      | d :: ds => argminBy (meanTime rows) d ds
  match supplied with
  | none => auto
  | some r => if r ∈ gDrivers rows then r else auto

/-- `driver_laps[driver_laps['LapNumber'] == lap_num][time_col].iloc[0]`:
the time of the first row, in input order, of the given driver and lap
(lines 432–436). -/

def firstTime (rows : List GRow) (d : String) (n : ℕ) : Option ℚ :=
  (rows.find? (fun r => r.driver == d && r.lap == n)).map (fun r => r.time)

/-- `sorted(driver_laps['LapNumber'].unique())` (line 431). -/

def sortedLaps (rows : List GRow) (d : String) : List ℕ :=
  List.insertionSort (· ≤ ·)
    ((rows.filter (fun r => r.driver == d)).map (fun r => r.lap)).dedup

/-- The loop body of lines 431–439: walk the driver's lap numbers with the
running `cumulative_gap`, emitting a point whenever both the driver and
the reference have a row at that lap number. -/

def gapGo (rows : List GRow) (ref d : String) : ℚ → List ℕ → List (ℕ × ℚ)
  | _, [] => []
  | acc, n :: ns =>
    match firstTime rows d n, firstTime rows ref n with
    | some td, some tr =>
      (n, acc + (td - tr)) :: gapGo rows ref d (acc + (td - tr)) ns
    | _, _ => gapGo rows ref d acc ns

/-- The gap series of one driver against the reference. -/

def gapPoints (rows : List GRow) (ref d : String) : List (ℕ × ℚ) :=
  gapGo rows ref d 0 (sortedLaps rows d)

/-- Lap numbers shared by the driver and the reference, ascending. -/

def sharedLaps (rows : List GRow) (ref d : String) : List ℕ :=
  (sortedLaps rows d).filter
    (fun n => (firstTime rows d n).isSome && (firstTime rows ref n).isSome)

/-- The per-lap difference `driver_time - reference_time` (line 436). -/

def lapDiff (rows : List GRow) (ref d : String) (n : ℕ) : ℚ :=
  (firstTime rows d n).getD 0 - (firstTime rows ref n).getD 0

/-- The traces emitted by `plot_gap_analysis` for a resolved reference: one
series per non-reference driver having strictly more than one point
(lines 417–457). -/

def plotGapAnalysis (rows : List GRow) (ref : String) :
    List (String × List (ℕ × ℚ)) :=
  (gDrivers rows).filterMap (fun dr =>
    if dr == ref then none
    else if 2 ≤ (gapPoints rows ref dr).length then
      some (dr, gapPoints rows ref dr)
    else none)

/-! #### Helper lemmas for the Gap/Delta Analyzer -/

/-- Fixture for the gap analyzer: reference R has laps 1 and 2, driver B
has laps 1, 2 and 3, so B shares exactly two laps with R. -/

def exGapRows : List GRow :=
  [{ driver := "R", lap := 1, time := 90, position := none },
   { driver := "R", lap := 2, time := 91, position := none },
   { driver := "B", lap := 1, time := 92, position := none },
   { driver := "B", lap := 2, time := 90, position := none },
   { driver := "B", lap := 3, time := 95, position := none }]

/-- Rows with a duplicated pair: driver B already has lap 1 at time 91; the
appended duplicate carries time 999. -/

def exDupBase : List GRow :=
  [{ driver := "A", lap := 1, time := 90, position := none },
   { driver := "B", lap := 1, time := 91, position := none },
   { driver := "A", lap := 2, time := 92, position := none },
   { driver := "B", lap := 2, time := 93, position := none }]

/-- The late duplicate row for driver B, lap 1. -/

def exDupExtra : List GRow :=
  [{ driver := "B", lap := 1, time := 999, position := none }]

/-! #### Reference-driver resolution (C4) -/

/-- Two drivers with position data but no lap in position 1: the first
driver A is slower on average than B. -/

def exNoLeader : List GRow :=
  [{ driver := "A", lap := 1, time := 100, position := some 2 },
   { driver := "B", lap := 1, time := 90, position := some 3 }]

/-! ### Stint Segmenter (`get_strategy_data` scan, data_loading.py lines
180–192, and the strategy statistics of app.py lines 356–368)

`get_strategy_data` re-runs the tyre-age scan per driver without the
`pd.isna` guard: the age resets exactly when `previous_compound !=
row['Compound']`, and a pandas `NaN` compares unequal to everything
including itself, so a run continues only between two equal non-null
compounds.  The stints implicit in that scan are the maximal such runs. -/

/-- One scanned lap of `get_strategy_data`: lap number and optional
compound. -/

structure StratLap where
  lap : ℕ
  compound : Option String
  deriving DecidableEq, Repr

/-- Whether two compound cells continue the same stint: both non-null and
equal (`previous_compound != row['Compound']` is False). -/

def sameC : Option String → Option String → Bool
  | some a, some b => a == b
  | _, _ => false

/-- Prepend a lap to a run decomposition: extend the first run when the
compound continues it, else open a new stint. -/

def stintCons (x : StratLap) : List (List StratLap) → List (List StratLap)
  | (y :: ys) :: rest =>
    if sameC x.compound y.compound then (x :: y :: ys) :: rest
    else [x] :: (y :: ys) :: rest
  | rs => [x] :: rs

/-- The stints of one driver's scanned laps: maximal runs of consecutive
laps whose compounds continue each other, in lap order. -/

def stintRuns : List StratLap → List (List StratLap)
  | [] => []
  | x :: xs => stintCons x (stintRuns xs)

/-- `driver_data['Compound'].value_counts()` keys: the distinct non-null
compounds (pandas `value_counts` drops NaN). -/

def distinctCompounds (laps : List StratLap) : List String :=
  uniqueKeys (laps.filterMap (fun l => l.compound))

/-- `pit_stops = len(driver_data['Compound'].value_counts()) - 1`
(app.py line 361). -/

def pitStops (laps : List StratLap) : ℤ :=
  (distinctCompounds laps).length - 1

/-- A driver who returns to a used compound: SOFT, MEDIUM, SOFT. -/

def exReuse : List StratLap :=
  [{ lap := 1, compound := some ("SOFT") },
   { lap := 2, compound := some ("MEDIUM") },
   { lap := 3, compound := some ("SOFT") }]

/-! ### Summary Metrics Aggregator (`create_summary_metrics`,
plotting.py lines 491–575)

Only the `most_consistent` ranking is under claim: pandas
`groupby('Driver')['LapTimeSeconds'].std()` is the sample standard
deviation, `NaN` for a driver with fewer than two valid laps, and
`idxmin()` skips `NaN` entries.  The standard deviation is the square root
of the sample variance, and square root is strictly monotone, so the
ranking is embedded on sample variances: the argmin and every comparison
agree with the std ranking, including ties. -/

/-- A lap row as `create_summary_metrics` reads it: driver and optional
lap time (`dropna(subset=['LapTimeSeconds'])` removes the null ones). -/

structure SRow where
  driver : String
  time : Option ℚ
  deriving DecidableEq, Repr

/-- A driver's valid lap times, in row order. -/

def validTimes (rows : List SRow) (d : String) : List ℚ :=
  (rows.filter (fun r => r.driver == d)).filterMap (fun r => r.time)

/-- Sample variance (pandas `std(ddof=1)` squared): `None` when fewer than
two values exist, exactly where pandas yields `NaN`. -/

def sampleVar (xs : List ℚ) : Option ℚ :=
  if xs.length < 2 then none
  else
    let m := xs.sum / xs.length
    some (((xs.map (fun x => (x - m) ^ 2)).sum) / (xs.length - 1))

/-- The `groupby('Driver').std()` series (plotting.py line 552): one
optional variance per driver, in appearance order. -/

def stdSeries (rows : List SRow) : List (String × Option ℚ) :=
  (uniqueKeys ((rows.filter (fun r => r.time.isSome)).map
    (fun r => r.driver))).map (fun d => (d, sampleVar (validTimes rows d)))

/-- `idxmin()` over an optional-valued series: skip `None` entries and keep
the first strictly smallest defined one, as pandas skips `NaN`. -/

def argminOpt : Option (String × ℚ) → List (String × Option ℚ) →
    Option (String × ℚ)
  | best, [] => best
  | best, (_, none) :: rest => argminOpt best rest
  | none, (d, some w) :: rest => argminOpt (some (d, w)) rest
  | some (b, v), (d, some w) :: rest =>
    argminOpt (if w < v then some (d, w) else some (b, v)) rest

/-- The `most_consistent` selection (plotting.py lines 551–560): the driver
with the smallest defined deviation, or `None` when no driver has one. -/

def mostConsistent (rows : List SRow) : Option (String × ℚ) :=
  argminOpt none (stdSeries rows)

/-- The driver keys of the `groupby` over valid laps: drivers owning at
least one valid lap, in appearance order. -/

def summaryDrivers (rows : List SRow) : List String :=
  uniqueKeys ((rows.filter (fun r => r.time.isSome)).map (fun r => r.driver))

/-- Summary fixture: driver A has two valid laps, driver B one valid lap
and one invalid lap. -/

def exSummary : List SRow :=
  [{ driver := "A", time := some 90 },
   { driver := "A", time := some 92 },
   { driver := "B", time := some 91 },
   { driver := "B", time := none }]

/-! ### Tyre Degradation Predictor (app.py lines 768–866)

The injected model's output is an arbitrary vector `preds` (one value per
stint lap); the block under claim starts at the skill adjustment of lines
789–792 and derives every statistic from the adjusted vector. -/

/-- The three driver profiles of the simulation select box. -/

inductive DriverProfile
  | average
  | championshipContender
  | rookie
  deriving DecidableEq, Repr

/-- The multiplicative skill adjustment (app.py lines 789–792): `×0.995`
for a championship contender, `×1.005` for a rookie, unchanged otherwise. -/

def skillFactor : DriverProfile → ℚ
  | DriverProfile.championshipContender => 995 / 1000
  | DriverProfile.rookie => 1005 / 1000
  | DriverProfile.average => 1

/-- `predictions = predictions * factor`: the whole vector is scaled by
one factor. -/

def adjustPredictions (profile : DriverProfile) (preds : List ℚ) : List ℚ :=
  preds.map (fun x => x * skillFactor profile)

/-- `predictions[0]` (app.py line 834). -/

def freshTyreTime (p : List ℚ) : ℚ := p.headD 0

/-- `predictions[-1]` (app.py line 836). -/

def endOfStintTime (p : List ℚ) : ℚ := p.getLastD 0

/-- `predictions[-1] - predictions[0]` (app.py line 838). -/

def totalDegradation (p : List ℚ) : ℚ := endOfStintTime p - freshTyreTime p

/-- `(predictions[-1] - predictions[0]) / stint_length` (app.py line 840). -/

def avgDegradationPerLap (p : List ℚ) (stintLength : ℕ) : ℚ :=
  totalDegradation p / stintLength

/-- Scan for the performance cliff: `np.where(predictions >
predictions[0] + 1.0)[0]` takes the first index crossing the threshold and
line 848 reports it one-based. -/

def cliffGo (fresh : ℚ) : ℕ → List ℚ → Option ℕ
  | _, [] => none
  | i, x :: xs => if fresh + 1 < x then some i else cliffGo fresh (i + 1) xs

/-- The performance-cliff lap (app.py lines 846–850): the first one-based
lap whose adjusted time exceeds the fresh-tyre time by more than one
second, or `none` (rendered "Beyond stint") when never crossed. -/

def performanceCliff (p : List ℚ) : Option ℕ :=
  cliffGo (freshTyreTime p) 1 p

/-! ### Confidence band (app.py lines 807–816)

`prediction_std = np.std(predictions) * 0.1` is one tenth of the
population standard deviation of the adjusted vector; the band polygon is
the curve shifted up by that constant followed by the reversed curve
shifted down by the same constant. -/

/-- Population variance (`np.std` squared, ddof = 0). -/

def popVar (p : List ℚ) : ℚ :=
  (p.map (fun x => (x - p.sum / p.length) ^ 2)).sum / p.length

/-- `np.std(predictions) * 0.1` (app.py line 807).  The square root lives
in the reals, so this value and the band edges are specification-level
quantities rather than executable ones. -/

noncomputable def predictionStd (p : List ℚ) : ℝ :=
  Real.sqrt (popVar p) * (1 / 10)

/-- The upper edge `predictions + prediction_std` (app.py line 810). -/

noncomputable def bandUpperY (p : List ℚ) : List ℝ :=
  p.map (fun x : ℚ => (x : ℝ) + predictionStd p)

/-- The lower edge `(predictions - prediction_std)[::-1]` (app.py
line 810). -/

noncomputable def bandLowerY (p : List ℚ) : List ℝ :=
  (p.map (fun x : ℚ => (x : ℝ) - predictionStd p)).reverse

/-! ### Proofs: helper lemmas, claim theorems, counterexamples and witnesses -/

/-! ### Proofs: helper lemmas, claim theorems, counterexamples and witnesses -/

theorem tyreAgeGo_length (cs : List (Option String)) :
    ∀ prev age, (tyreAgeGo prev age cs).length = cs.length := by
  induction cs with
  | nil => intro prev age; rfl
  | cons c cs ih =>
    intro prev age
    simp only [tyreAgeGo, List.length_cons, ih]

theorem calculateTyreAge_length (cs : List (Option String)) :
    (calculateTyreAge cs).length = cs.length :=
  tyreAgeGo_length cs none 0

theorem tyreAgeGo_head (c : Option String) (cs : List (Option String)) :
    ∀ prev age, (tyreAgeGo prev age (c :: cs)).getD 0 0 =
      if c = none ∨ prev ≠ c then 1 else age + 1 := by
  intro prev age
  simp only [tyreAgeGo, List.getD_cons_zero]

theorem tyreAgeGo_succ (cs : List (Option String)) :
    ∀ prev age i, i + 1 < cs.length →
      (tyreAgeGo prev age cs).getD (i + 1) 0 =
        (if cs.getD (i + 1) none = none ∨ cs.getD (i + 1) none ≠ cs.getD i none
          then 1 else (tyreAgeGo prev age cs).getD i 0 + 1) := by
  induction cs with
  | nil => intro prev age i h; simp at h
  | cons c cs ih =>
    intro prev age i h
    match i with
    | 0 =>
      match cs, h with
      | c2 :: cs2, _ =>
        simp only [tyreAgeGo, List.getD_cons_succ, List.getD_cons_zero,
          ne_comm]
    | Nat.succ j =>
      have hj : j + 1 < cs.length := by
        simpa [Nat.succ_lt_succ_iff] using h
      simp only [tyreAgeGo, List.getD_cons_succ]
      exact ih c _ j hj

theorem mem_uniqueKeysAux (l : List String) :
    ∀ seen x, x ∈ uniqueKeysAux seen l ↔ (x ∈ l ∧ x ∉ seen) := by
  induction l with
  | nil => intro seen x; simp [uniqueKeysAux]
  | cons a l ih =>
    intro seen x
    by_cases ha : a ∈ seen
    · rw [uniqueKeysAux, if_pos ha, ih]
      constructor
      · rintro ⟨hx, hs⟩
        exact ⟨List.mem_cons_of_mem a hx, hs⟩
      · rintro ⟨hx, hs⟩
        rcases List.mem_cons.mp hx with h | h
        · exact absurd (h ▸ ha) hs
        · exact ⟨h, hs⟩
    · rw [uniqueKeysAux, if_neg ha]
      simp only [List.mem_cons, ih, not_or]
      constructor
      · rintro (rfl | ⟨hx, hne, hs⟩)
        · exact ⟨Or.inl rfl, ha⟩
        · exact ⟨Or.inr hx, hs⟩
      · rintro ⟨rfl | hx, hs⟩
        · exact Or.inl rfl
        · by_cases hxa : x = a
          · exact Or.inl hxa
          · exact Or.inr ⟨hx, hxa, hs⟩

theorem mem_uniqueKeys (l : List String) (x : String) :
    x ∈ uniqueKeys l ↔ x ∈ l := by
  rw [uniqueKeys, mem_uniqueKeysAux]
  simp

theorem nodup_uniqueKeysAux (l : List String) :
    ∀ seen, (uniqueKeysAux seen l).Nodup := by
  induction l with
  | nil => intro seen; simp [uniqueKeysAux]
  | cons a l ih =>
    intro seen
    by_cases ha : a ∈ seen
    · rw [uniqueKeysAux, if_pos ha]; exact ih seen
    · rw [uniqueKeysAux, if_neg ha]
      refine List.nodup_cons.mpr ⟨?_, ih (a :: seen)⟩
      intro hmem
      exact ((mem_uniqueKeysAux l (a :: seen) a).mp hmem).2
        (List.mem_cons_self a seen)

theorem nodup_uniqueKeys (l : List String) : (uniqueKeys l).Nodup :=
  nodup_uniqueKeysAux l []

theorem flatten_map_ite {α : Type} (G : List α) (d : String) :
    ∀ keys : List String, keys.Nodup →
      (keys.map (fun k => if k = d then G else [])).flatten
        = if d ∈ keys then G else [] := by
  intro keys
  induction keys with
  | nil => intro _; simp
  | cons k ks ih =>
    intro hnd
    rcases List.nodup_cons.mp hnd with ⟨hk, hnd2⟩
    by_cases hkd : k = d
    · subst hkd
      rw [List.map_cons, List.flatten_cons, if_pos rfl,
        if_pos (List.mem_cons_self k ks), ih hnd2, if_neg hk,
        List.append_nil]
    · have hdk : ¬ d = k := fun h => hkd h.symm
      rw [List.map_cons, List.flatten_cons, if_neg hkd, List.nil_append,
        ih hnd2]
      by_cases hdks : d ∈ ks
      · rw [if_pos hdks, if_pos (List.mem_cons_of_mem k hdks)]
      · rw [if_neg hdks, if_neg (by simp [List.mem_cons, hdk, hdks])]

theorem normalizeGroup_driver (m : ℚ) (valid : List (RawLap × ℚ))
    (d : String) :
    ∀ rec ∈ normalizeGroup m (driverGroup valid d), rec.driver = d := by
  intro rec hrec
  simp only [normalizeGroup, List.mem_map] at hrec
  obtain ⟨⟨⟨r, t⟩, age⟩, hpr, rfl⟩ := hrec
  have h1 : (r, t) ∈ driverGroup valid d := (List.of_mem_zip hpr).1
  have h2 := (List.mem_filter.mp h1).2
  exact beq_iff_eq.mp h2

theorem normalizeGroup_proj (m : ℚ) (grp : List (RawLap × ℚ)) :
    (normalizeGroup m grp).map
        (fun rec => (rec.lap, rec.lapTimeSeconds, rec.compound, rec.position))
      = grp.map (fun p => (p.1.lap, p.2, p.1.compound, p.1.position)) := by
  simp only [normalizeGroup, List.map_map]
  have hlen : grp.length ≤
      (calculateTyreAge (grp.map (fun p => p.1.compound))).length := by
    rw [calculateTyreAge_length, List.length_map]
  show (grp.zip (calculateTyreAge (grp.map (fun p => p.1.compound)))).map
      ((fun p : RawLap × ℚ => (p.1.lap, p.2, p.1.compound, p.1.position))
        ∘ Prod.fst) = _
  rw [← List.map_map, List.map_fst_zip _ _ hlen]

theorem filterMap_valid {β : Type} (d : String) (f : RawLap → ℚ → β) :
    ∀ l : List RawLap,
      (l.filter (fun r => r.driver == d)).filterMap
          (fun r => r.lapTime.map (fun t => f r t))
        = ((validPairs l).filter (fun p => p.1.driver == d)).map
            (fun p => f p.1 p.2) := by
  intro l
  induction l with
  | nil => rfl
  | cons r l ih =>
    cases hrt : r.lapTime with
    | none =>
      cases hd : (r.driver == d) with
      | false =>
        simpa [validPairs, List.filterMap_cons, List.filter_cons, hrt, hd]
          using ih
      | true =>
        simpa [validPairs, List.filterMap_cons, List.filter_cons, hrt, hd]
          using ih
    | some t =>
      cases hd : (r.driver == d) with
      | false =>
        simpa [validPairs, List.filterMap_cons, List.filter_cons, hrt, hd]
          using ih
      | true =>
        simpa [validPairs, List.filterMap_cons, List.filter_cons, hrt, hd]
          using ih

/-- C2: within one driver's rows, taken in lap order, the tyre age is 1 on
the first lap and on any lap with a missing compound, increments by exactly
1 on each lap whose compound equals the immediately preceding lap's
compound, and resets to 1 whenever the compound differs from the preceding
lap (including a return to a previously used compound); the compound
sequence SOFT, SOFT, SOFT, MEDIUM, MEDIUM yields ages 1, 2, 3, 1, 2. -/
theorem tyreAge_rules :
    (∀ cs : List (Option String),
      (calculateTyreAge cs).length = cs.length
      ∧ (∀ c cs2, cs = c :: cs2 → (calculateTyreAge cs).getD 0 0 = 1)
      ∧ (∀ i, i + 1 < cs.length → cs.getD (i + 1) none = none →
          (calculateTyreAge cs).getD (i + 1) 0 = 1)
      ∧ (∀ i, i + 1 < cs.length → cs.getD i none ≠ cs.getD (i + 1) none →
          (calculateTyreAge cs).getD (i + 1) 0 = 1)
      ∧ (∀ i c, i + 1 < cs.length → cs.getD i none = some c →
          cs.getD (i + 1) none = some c →
          (calculateTyreAge cs).getD (i + 1) 0
            = (calculateTyreAge cs).getD i 0 + 1))
    ∧ calculateTyreAge
        [some ("SOFT"), some ("SOFT"), some ("SOFT"), some ("MEDIUM"), some ("MEDIUM")]
      = [1, 2, 3, 1, 2] := by
  refine ⟨fun cs => ⟨calculateTyreAge_length cs, ?_, ?_, ?_, ?_⟩, by decide⟩
  · rintro c cs2 rfl
    rw [calculateTyreAge, tyreAgeGo_head]
    split
    · rfl
    · rfl
  · intro i h hnone
    rw [calculateTyreAge, tyreAgeGo_succ cs none 0 i h]
    rw [if_pos (Or.inl hnone)]
  · intro i h hne
    rw [calculateTyreAge, tyreAgeGo_succ cs none 0 i h]
    rw [if_pos (Or.inr (fun he => hne he.symm))]
  · intro i c h hi hsucc
    rw [calculateTyreAge, tyreAgeGo_succ cs none 0 i h]
    rw [if_neg]
    rintro (h1 | h2)
    · rw [hsucc] at h1; exact Option.noConfusion h1
    · rw [hsucc, hi] at h2; exact h2 rfl

/-- Witness for C2: on the concrete compound sequence A, A, missing, B the
rules give ages 1, 2, 1, 1 — same compound increments, a missing compound
resets, and a change after the gap resets. -/
theorem tyreAge_rules_witness :
    (calculateTyreAge [some ("A"), some ("A"), none, some ("B")]).getD 1 0
        = (calculateTyreAge [some ("A"), some ("A"), none, some ("B")]).getD 0 0 + 1
    ∧ (calculateTyreAge [some ("A"), some ("A"), none, some ("B")]).getD 2 0 = 1
    ∧ (calculateTyreAge [some ("A"), some ("A"), none, some ("B")]).getD 3 0 = 1 :=
  ⟨(tyreAge_rules.1 _).2.2.2.2 0 ("A") (by decide) rfl rfl,
   (tyreAge_rules.1 _).2.2.1 1 (by decide) rfl,
   (tyreAge_rules.1 _).2.2.2.1 2 (by decide) (by decide)⟩

/-- C9: the Normalizer applied to a missing session, to an empty session
(one with no lap rows, where the per-driver loop collects nothing and line
130 returns the empty frame), or to an empty driver list, returns the
empty record set (it is a total function, so no exception is possible). -/
theorem getLapData_empty_inputs :
    (∀ drivers, getLapData none drivers = [])
    ∧ (∀ drivers, getLapData (some []) drivers = [])
    ∧ (∀ s, getLapData (some s) [] = []) := by
  refine ⟨fun _ => rfl, ?_, fun _ => rfl⟩
  intro drivers
  match drivers with
  | [] => rfl
  | d0 :: ds2 =>
    rw [getLapData, if_neg (by simp)]
    have hcomb : (((d0 :: ds2).map (pickDriver [])).flatten : List RawLap)
        = [] := by
      simp [pickDriver]
    rw [hcomb]
    rfl

/-- C3 counterexample: the Normalizer does not retain a record for the lap
whose time is missing — `get_lap_data` drops the row entirely at the
`dropna(subset=['LapTime'])` step, so the output for the two-row session
holds only lap 1 and no `LapRecord` with a null time exists at all. -/
theorem normalizer_drops_untimed_row :
    exMissingTime.length = 2
    ∧ (getLapData (some exMissingTime) ["A"]).map (fun rec => rec.lap) = [1] := by
  exact ⟨rfl, by decide⟩

/-- C3 amended: a lap row without a recorded time is excluded from the
Normalizer's output entirely (hence from every timing aggregation), while
every row with a recorded time is kept with its lap, time, compound and
position intact: per driver, the output projects exactly onto the timed
input rows, in order. -/
theorem getLapData_keeps_exactly_timed_rows
    (s : List RawLap) (ds : List String) (d : String) :
    ((getLapData (some s) ds).filter (fun rec => rec.driver == d)).map
        (fun rec => (rec.lap, rec.lapTimeSeconds, rec.compound, rec.position))
      = (((ds.map (pickDriver s)).flatten).filter
          (fun r => r.driver == d)).filterMap
          (fun r => r.lapTime.map (fun t => (r.lap, t, r.compound, r.position))) := by
  match ds with
  | [] => rfl
  | d0 :: ds2 =>
    rw [getLapData]
    rw [if_neg (by simp)]
    rw [filterMap_valid d (fun r t => (r.lap, t, r.compound, r.position))]
    set combined := ((d0 :: ds2).map (pickDriver s)).flatten with hcomb
    set valid := validPairs combined with hvalid
    set m := minQ (valid.map (fun p => p.2)) with hm
    set keys := uniqueKeys (valid.map (fun p => p.1.driver)) with hkeys
    rw [List.filter_flatten, List.map_map]
    have hgroups :
        keys.map ((List.filter (fun rec => rec.driver == d)) ∘
          (fun k => normalizeGroup m (driverGroup valid k)))
        = keys.map (fun k =>
            if k = d then normalizeGroup m (driverGroup valid d) else []) := by
      apply List.map_congr_left
      intro k _
      by_cases hkd : k = d
      · subst hkd
        simp only [Function.comp_apply, if_pos rfl]
        apply List.filter_eq_self.mpr
        intro rec hrec
        exact beq_iff_eq.mpr (normalizeGroup_driver m valid k rec hrec)
      · simp only [Function.comp_apply, if_neg hkd]
        apply List.filter_eq_nil_iff.mpr
        intro rec hrec
        have := normalizeGroup_driver m valid k rec hrec
        simp [this, hkd]
    rw [hgroups, flatten_map_ite _ d keys (nodup_uniqueKeys _)]
    by_cases hdk : d ∈ keys
    · rw [if_pos hdk, normalizeGroup_proj]
      rfl
    · rw [if_neg hdk]
      have hempty : valid.filter (fun p => p.1.driver == d) = [] := by
        apply List.filter_eq_nil_iff.mpr
        intro p hp hbeq
        apply hdk
        rw [hkeys, mem_uniqueKeys]
        exact List.mem_map.mpr ⟨p, hp, beq_iff_eq.mp hbeq⟩
      show ([] : List (ℕ × ℚ × Option String × Option ℕ))
        = ((validPairs combined).filter (fun p => p.1.driver == d)).map _
      rw [← hvalid, hempty]
      rfl

theorem gapGo_map_fst (rows : List GRow) (ref d : String) :
    ∀ ns acc, (gapGo rows ref d acc ns).map Prod.fst
      = ns.filter
          (fun n => (firstTime rows d n).isSome
            && (firstTime rows ref n).isSome) := by
  intro ns
  induction ns with
  | nil => intro acc; rfl
  | cons n ns ih =>
    intro acc
    cases h1 : firstTime rows d n with
    | none => simp [gapGo, h1, List.filter_cons, ih]
    | some td =>
      cases h2 : firstTime rows ref n with
      | none => simp [gapGo, h1, h2, List.filter_cons, ih]
      | some tr => simp [gapGo, h1, h2, List.filter_cons, ih]

theorem gapGo_getD (rows : List GRow) (ref d : String) :
    ∀ ns acc k,
      k < (ns.filter (fun n => (firstTime rows d n).isSome
            && (firstTime rows ref n).isSome)).length →
      ((gapGo rows ref d acc ns).getD k (0, 0)).2
        = acc + (((ns.filter (fun n => (firstTime rows d n).isSome
            && (firstTime rows ref n).isSome)).take (k + 1)).map
              (lapDiff rows ref d)).sum := by
  intro ns
  induction ns with
  | nil => intro acc k h; simp at h
  | cons n ns ih =>
    intro acc k h
    cases h1 : firstTime rows d n with
    | none =>
      rw [List.filter_cons_of_neg (by simp [h1])] at h ⊢
      simpa [gapGo, h1] using ih acc k h
    | some td =>
      cases h2 : firstTime rows ref n with
      | none =>
        rw [List.filter_cons_of_neg (by simp [h1, h2])] at h ⊢
        simpa [gapGo, h1, h2] using ih acc k h
      | some tr =>
        rw [List.filter_cons_of_pos (by simp [h1, h2])] at h ⊢
        have hdiff : lapDiff rows ref d n = td - tr := by
          simp [lapDiff, h1, h2]
        match k with
        | 0 =>
          simp [gapGo, h1, h2, hdiff]
        | Nat.succ j =>
          have hj : j < (ns.filter (fun n => (firstTime rows d n).isSome
              && (firstTime rows ref n).isSome)).length := by
            simpa [Nat.succ_lt_succ_iff] using h
          have := ih (acc + (td - tr)) j hj
          simp only [gapGo, h1, h2, List.getD_cons_succ, List.take_succ_cons,
            List.map_cons, List.sum_cons, hdiff]
          rw [this]
          ring

theorem sortedLaps_sorted (rows : List GRow) (d : String) :
    List.Sorted (· < ·) (sortedLaps rows d) := by
  have hs : List.Sorted (· ≤ ·) (sortedLaps rows d) :=
    List.sorted_insertionSort _ _
  have hnd : (sortedLaps rows d).Nodup :=
    (List.perm_insertionSort _ _).nodup_iff.mpr (List.nodup_dedup _)
  exact hs.lt_of_le hnd

theorem mem_sortedLaps (rows : List GRow) (d : String) (n : ℕ) :
    n ∈ sortedLaps rows d ↔ ∃ r ∈ rows, r.driver = d ∧ r.lap = n := by
  rw [sortedLaps, (List.perm_insertionSort _ _).mem_iff, List.mem_dedup]
  simp only [List.mem_map, List.mem_filter, beq_iff_eq]
  constructor
  · rintro ⟨r, ⟨hr, hdr⟩, hlap⟩
    exact ⟨r, hr, hdr, hlap⟩
  · rintro ⟨r, hr, hdr, hlap⟩
    exact ⟨r, ⟨hr, hdr⟩, hlap⟩

theorem sharedLaps_driver_mem (rows : List GRow) (ref d : String)
    (h : sharedLaps rows ref d ≠ []) : d ∈ gDrivers rows := by
  obtain ⟨n, hn⟩ := List.exists_mem_of_ne_nil _ h
  have hns : n ∈ sortedLaps rows d := (List.mem_filter.mp hn).1
  obtain ⟨r, hr, hdr, _⟩ := (mem_sortedLaps rows d n).mp hns
  rw [gDrivers, mem_uniqueKeys]
  exact List.mem_map.mpr ⟨r, hr, hdr⟩

/-- C1: for a dataset of normalized lap rows, a reference driver and any
other driver, the emitted gap series visits exactly the lap numbers shared
by the two drivers, in ascending order, its k-th value is the running sum
of the per-lap differences `driver_time - reference_time` over the shared
laps so far (missing laps on either side are skipped with no zero-fill),
a driver with at least two shared laps contributes exactly this series,
and a driver with fewer than two shared laps contributes no series. -/
theorem gap_series_spec (rows : List GRow) (ref d : String) :
    (gapPoints rows ref d).map Prod.fst = sharedLaps rows ref d
    ∧ List.Sorted (· < ·) (sharedLaps rows ref d)
    ∧ (∀ k, k < (sharedLaps rows ref d).length →
        ((gapPoints rows ref d).getD k (0, 0)).2
          = (((sharedLaps rows ref d).take (k + 1)).map
              (lapDiff rows ref d)).sum)
    ∧ (d ≠ ref → 2 ≤ (sharedLaps rows ref d).length →
        (d, gapPoints rows ref d) ∈ plotGapAnalysis rows ref)
    ∧ ((sharedLaps rows ref d).length ≤ 1 →
        ∀ pts, (d, pts) ∉ plotGapAnalysis rows ref) := by
  have hfst : (gapPoints rows ref d).map Prod.fst = sharedLaps rows ref d :=
    gapGo_map_fst rows ref d (sortedLaps rows d) 0
  have hlen : (gapPoints rows ref d).length = (sharedLaps rows ref d).length := by
    rw [← hfst, List.length_map]
  refine ⟨hfst, ?_, ?_, ?_, ?_⟩
  · exact List.Pairwise.filter _ (sortedLaps_sorted rows d)
  · intro k hk
    have := gapGo_getD rows ref d (sortedLaps rows d) 0 k hk
    simpa [gapPoints, sharedLaps] using this
  · intro hne h2
    have hdmem : d ∈ gDrivers rows := by
      apply sharedLaps_driver_mem rows ref d
      intro hnil
      rw [hnil] at h2
      simp at h2
    apply List.mem_filterMap.mpr
    refine ⟨d, hdmem, ?_⟩
    have hb : ¬ ((d == ref) = true) := by simp [hne]
    rw [if_neg hb,
      if_pos (show 2 ≤ (gapPoints rows ref d).length by rw [hlen]; exact h2)]
  · intro hle pts hmem
    obtain ⟨dr, _, hf⟩ := List.mem_filterMap.mp hmem
    by_cases hb : (dr == ref) = true
    · rw [if_pos hb] at hf
      exact Option.noConfusion hf
    · rw [if_neg hb] at hf
      by_cases h2 : 2 ≤ (gapPoints rows ref dr).length
      · rw [if_pos h2] at hf
        have heq := Option.some.inj hf
        have hdr_eq : dr = d := congrArg Prod.fst heq
        rw [hdr_eq, hlen] at h2
        omega
      · rw [if_neg h2] at hf
        exact Option.noConfusion hf

/-- Witness for C1: on the fixture, driver B shares two laps with the
reference and therefore contributes its gap series. -/
theorem gap_series_spec_witness :
    ("B" : String) ≠ "R"
    ∧ 2 ≤ (sharedLaps exGapRows ("R") ("B")).length
    ∧ ("B", gapPoints exGapRows ("R") ("B")) ∈ plotGapAnalysis exGapRows ("R") :=
  ⟨by decide, by decide,
   (gap_series_spec exGapRows ("R") ("B")).2.2.2.1 (by decide) (by decide)⟩

/-- C10: when duplicated `(driver, lap)` rows exist, the analyzer reads the
first row in input order (`.iloc[0]`) for the driver and for the reference
alike, so rows appended after an existing `(driver, lap)` pair never change
any gap series. -/
theorem gap_duplicates_first_record_wins (rows extra : List GRow)
    (ref d : String)
    (h : ∀ r ∈ extra, ∃ r0 ∈ rows, r0.driver = r.driver ∧ r0.lap = r.lap) :
    gapPoints (rows ++ extra) ref d = gapPoints rows ref d := by
  have hft : ∀ (x : String) (n : ℕ),
      firstTime (rows ++ extra) x n = firstTime rows x n := by
    intro x n
    rw [firstTime, firstTime, List.find?_append]
    cases hf : rows.find? (fun r => r.driver == x && r.lap == n) with
    | some r => rfl
    | none =>
      have hex : extra.find? (fun r => r.driver == x && r.lap == n) = none := by
        apply List.find?_eq_none.mpr
        intro r hr hb
        obtain ⟨r0, hr0, hdr, hlap⟩ := h r hr
        have hb0 : (r0.driver == x && r0.lap == n) = true := by
          rw [hdr, hlap]
          exact hb
        exact List.find?_eq_none.mp hf r0 hr0 hb0
      rw [hex]
      rfl
  have hlaps : sortedLaps (rows ++ extra) d = sortedLaps rows d := by
    apply List.eq_of_perm_of_sorted ?_ (List.sorted_insertionSort _ _)
      (List.sorted_insertionSort _ _)
    refine ((List.perm_insertionSort _ _).trans ?_).trans
      (List.perm_insertionSort _ _).symm
    apply (List.perm_ext_iff_of_nodup (List.nodup_dedup _)
      (List.nodup_dedup _)).mpr
    intro n
    rw [List.mem_dedup, List.mem_dedup]
    simp only [List.mem_map, List.mem_filter, List.mem_append, beq_iff_eq]
    constructor
    · rintro ⟨r, ⟨hr | hr, hdr⟩, hlap⟩
      · exact ⟨r, ⟨hr, hdr⟩, hlap⟩
      · obtain ⟨r0, hr0, hdr0, hlap0⟩ := h r hr
        exact ⟨r0, ⟨hr0, hdr0.trans hdr⟩, hlap0.trans hlap⟩
    · rintro ⟨r, ⟨hr, hdr⟩, hlap⟩
      exact ⟨r, ⟨Or.inl hr, hdr⟩, hlap⟩
  have hgo : ∀ ns acc,
      gapGo (rows ++ extra) ref d acc ns = gapGo rows ref d acc ns := by
    intro ns
    induction ns with
    | nil => intro acc; rfl
    | cons n ns ih =>
      intro acc
      cases h1 : firstTime rows d n with
      | none =>
        cases h2 : firstTime rows ref n with
        | none => simp [gapGo, hft, h1, h2, ih]
        | some tr => simp [gapGo, hft, h1, h2, ih]
      | some td =>
        cases h2 : firstTime rows ref n with
        | none => simp [gapGo, hft, h1, h2, ih]
        | some tr => simp [gapGo, hft, h1, h2, ih]
  rw [gapPoints, gapPoints, hlaps, hgo]

/-- Witness for C10: appending the duplicate row leaves B's gap series
against reference A unchanged. -/
theorem gap_duplicates_first_record_wins_witness :
    gapPoints (exDupBase ++ exDupExtra) ("A") ("B") = gapPoints exDupBase ("A") ("B") :=
  gap_duplicates_first_record_wins exDupBase exDupExtra ("A") ("B") (by decide)

theorem argmaxBy_spec (f : String → ℕ) :
    ∀ ds best, (argmaxBy f best ds = best ∨ argmaxBy f best ds ∈ ds)
      ∧ f best ≤ f (argmaxBy f best ds)
      ∧ ∀ d ∈ ds, f d ≤ f (argmaxBy f best ds) := by
  intro ds
  induction ds with
  | nil =>
    intro best
    exact ⟨Or.inl rfl, le_refl _, by simp⟩
  | cons d ds ih =>
    intro best
    simp only [argmaxBy]
    by_cases hlt : f best < f d
    · rw [if_pos hlt]
      obtain ⟨hmem, hle, hall⟩ := ih d
      refine ⟨?_, le_trans (le_of_lt hlt) hle, ?_⟩
      · rcases hmem with h | h
        · exact Or.inr (by rw [h]; exact List.mem_cons_self d ds)
        · exact Or.inr (List.mem_cons_of_mem d h)
      · intro x hx
        rcases List.mem_cons.mp hx with rfl | hx2
        · exact hle
        · exact hall x hx2
    · rw [if_neg hlt]
      obtain ⟨hmem, hle, hall⟩ := ih best
      refine ⟨?_, hle, ?_⟩
      · rcases hmem with h | h
        · exact Or.inl h
        · exact Or.inr (List.mem_cons_of_mem d h)
      · intro x hx
        rcases List.mem_cons.mp hx with rfl | hx2
        · exact le_trans (le_of_not_lt hlt) hle
        · exact hall x hx2

theorem argminBy_spec (f : String → ℚ) :
    ∀ ds best, (argminBy f best ds = best ∨ argminBy f best ds ∈ ds)
      ∧ f (argminBy f best ds) ≤ f best
      ∧ ∀ d ∈ ds, f (argminBy f best ds) ≤ f d := by
  intro ds
  induction ds with
  | nil =>
    intro best
    exact ⟨Or.inl rfl, le_refl _, by simp⟩
  | cons d ds ih =>
    intro best
    simp only [argminBy]
    by_cases hlt : f d < f best
    · rw [if_pos hlt]
      obtain ⟨hmem, hle, hall⟩ := ih d
      refine ⟨?_, le_trans hle (le_of_lt hlt), ?_⟩
      · rcases hmem with h | h
        · exact Or.inr (by rw [h]; exact List.mem_cons_self d ds)
        · exact Or.inr (List.mem_cons_of_mem d h)
      · intro x hx
        rcases List.mem_cons.mp hx with rfl | hx2
        · exact hle
        · exact hall x hx2
    · rw [if_neg hlt]
      obtain ⟨hmem, hle, hall⟩ := ih best
      refine ⟨?_, hle, ?_⟩
      · rcases hmem with h | h
        · exact Or.inl h
        · exact Or.inr (List.mem_cons_of_mem d h)
      · intro x hx
        rcases List.mem_cons.mp hx with rfl | hx2
        · exact le_trans hle (le_of_not_lt hlt)
        · exact hall x hx2

/-- C4 counterexample: with position data present but no lap ever led, the
code jumps straight to `available_drivers[0]` and returns A, while the
claimed rule order (rule 2 inapplicable, hence rule 3: lowest mean lap
time) demands B — the claimed chain and the implemented chain disagree. -/
theorem reference_resolution_counterexample :
    resolveReference none exNoLeader = "A"
    ∧ resolveReferenceClaim none exNoLeader = "B"
    ∧ hasPositionData exNoLeader = true
    ∧ hasLeader exNoLeader = false
    ∧ meanTime exNoLeader ("B") < meanTime exNoLeader ("A") := by
  have hA : meanTime exNoLeader ("A") = 100 := by
    simp only [meanTime]
    rw [show (exNoLeader.filter (fun r => r.driver == "A")).map
      (fun r => r.time) = [100] from by decide]
    norm_num
  have hB : meanTime exNoLeader ("B") = 90 := by
    simp only [meanTime]
    rw [show (exNoLeader.filter (fun r => r.driver == "B")).map
      (fun r => r.time) = [90] from by decide]
    norm_num
  refine ⟨by decide, ?_, by decide, by decide, ?_⟩
  · simp only [resolveReferenceClaim]
    rw [show (hasPositionData exNoLeader && hasLeader exNoLeader) = false
      from by decide]
    rw [if_neg (by simp)]
    rw [show gDrivers exNoLeader = ["A", "B"] from by decide]
    simp only [argminBy]
    rw [hB, hA]
    rw [if_pos (by norm_num)]
  · rw [hA, hB]
    norm_num

/-- C4 amended: the resolution applies, in order: (1) the caller-supplied
reference when it occurs in the dataset; (2) if any non-null position data
exists and at least one lap was led, a driver leading the most laps;
(3) if position data exists but no lap was led at all, the first driver in
the dataset (not the lowest-mean driver); (4) with no position data, a
driver with the lowest mean lap time. -/
theorem reference_resolution_rules (rows : List GRow)
    (supplied : Option String) :
    (∀ r, supplied = some r → r ∈ gDrivers rows →
      resolveReference supplied rows = r)
    ∧ (hasPositionData rows = true → hasLeader rows = true →
        autoReference rows ∈ gDrivers rows
        ∧ ∀ d ∈ gDrivers rows,
            p1Count rows d ≤ p1Count rows (autoReference rows))
    ∧ (hasPositionData rows = true → hasLeader rows = false →
        autoReference rows = (gDrivers rows).headD (""))
    ∧ (hasPositionData rows = false → rows ≠ [] →
        autoReference rows ∈ gDrivers rows
        ∧ ∀ d ∈ gDrivers rows,
            meanTime rows (autoReference rows) ≤ meanTime rows d)
    ∧ (supplied = none → resolveReference supplied rows = autoReference rows) := by
  have hne_drivers : rows ≠ [] → gDrivers rows ≠ [] := by
    intro hrows
    match rows, hrows with
    | r :: rows2, _ =>
      intro hnil
      have : r.driver ∈ gDrivers (r :: rows2) := by
        rw [gDrivers, mem_uniqueKeys]
        exact List.mem_map.mpr ⟨r, List.mem_cons_self _ _, rfl⟩
      rw [hnil] at this
      exact List.not_mem_nil _ this
  refine ⟨?_, ?_, ?_, ?_, ?_⟩
  · rintro r rfl hmem
    rw [resolveReference, if_pos hmem]
  · intro hpd hl
    have hrows : rows ≠ [] := by
      intro hnil
      rw [hnil] at hl
      simp [hasLeader] at hl
    have hgd := hne_drivers hrows
    rw [autoReference, if_pos hpd, if_pos hl]
    match hgd2 : gDrivers rows with
    | [] => exact absurd hgd2 hgd
    | d0 :: ds =>
      obtain ⟨hmem, _, hall⟩ := argmaxBy_spec (p1Count rows) ds d0
      refine ⟨?_, ?_⟩
      · show argmaxBy (p1Count rows) d0 ds ∈ d0 :: ds
        rcases hmem with h | h
        · rw [h]; exact List.mem_cons_self d0 ds
        · exact List.mem_cons_of_mem d0 h
      · intro d hd
        show p1Count rows d ≤ p1Count rows (argmaxBy (p1Count rows) d0 ds)
        rcases List.mem_cons.mp hd with rfl | hd2
        · exact (argmaxBy_spec (p1Count rows) ds _).2.1
        · exact hall d hd2
  · intro hpd hl
    rw [autoReference, if_pos hpd, if_neg (by simp [hl])]
  · intro hpd hrows
    have hgd := hne_drivers hrows
    rw [autoReference, if_neg (by simp [hpd])]
    match hgd2 : gDrivers rows with
    | [] => exact absurd hgd2 hgd
    | d0 :: ds =>
      obtain ⟨hmem, _, hall⟩ := argminBy_spec (meanTime rows) ds d0
      refine ⟨?_, ?_⟩
      · show argminBy (meanTime rows) d0 ds ∈ d0 :: ds
        rcases hmem with h | h
        · rw [h]; exact List.mem_cons_self d0 ds
        · exact List.mem_cons_of_mem d0 h
      · intro d hd
        show meanTime rows (argminBy (meanTime rows) d0 ds) ≤ meanTime rows d
        rcases List.mem_cons.mp hd with rfl | hd2
        · exact (argminBy_spec (meanTime rows) ds _).2.1
        · exact hall d hd2
  · rintro rfl
    rfl

/-- Witness for C4 amended: on the no-leader fixture the fallback returns
the first driver A, and a supplied reference present in the data is kept. -/
theorem reference_resolution_rules_witness :
    autoReference exNoLeader = (gDrivers exNoLeader).headD ("")
    ∧ resolveReference (some ("B")) exNoLeader = "B" :=
  ⟨(reference_resolution_rules exNoLeader none).2.2.1 (by decide) (by decide),
   (reference_resolution_rules exNoLeader (some ("B"))).1 ("B") rfl (by decide)⟩

theorem stintCons_flatten (x : StratLap) (rs : List (List StratLap)) :
    (stintCons x rs).flatten = x :: rs.flatten := by
  cases rs with
  | nil => rfl
  | cons r rest =>
    cases r with
    | nil => rfl
    | cons y ys =>
      simp only [stintCons]
      split
      · simp
      · simp

theorem stintRuns_flatten (laps : List StratLap) :
    (stintRuns laps).flatten = laps := by
  induction laps with
  | nil => rfl
  | cons x xs ih => rw [stintRuns, stintCons_flatten, ih]

theorem stintRuns_ok (laps : List StratLap) :
    (∀ r ∈ stintRuns laps, r ≠ []
      ∧ r.Chain' (fun a b => sameC a.compound b.compound = true))
    ∧ (stintRuns laps).Chain' (fun r1 r2 =>
        sameC (r1.getLastD { lap := 0, compound := none }).compound
          ((r2.headD { lap := 0, compound := none }).compound) = false) := by
  induction laps with
  | nil => exact ⟨by simp [stintRuns], List.chain'_nil⟩
  | cons x xs ih =>
    obtain ⟨ih1, ih2⟩ := ih
    rw [stintRuns]
    cases hrs : stintRuns xs with
    | nil =>
      refine ⟨?_, ?_⟩
      · intro r hr
        simp only [stintCons, List.mem_singleton] at hr
        subst hr
        exact ⟨by simp, List.chain'_singleton x⟩
      · exact List.chain'_singleton _
    | cons r rest =>
      rw [hrs] at ih1 ih2
      cases r with
      | nil =>
        have hmem : ([] : List StratLap) ∈ ([] : List StratLap) :: rest :=
          List.mem_cons_self _ _
        exact absurd rfl (ih1 [] hmem).1
      | cons y ys =>
        cases hsc : sameC x.compound y.compound with
        | true =>
          have hred : stintCons x ((y :: ys) :: rest)
              = (x :: y :: ys) :: rest := by
            simp only [stintCons, hsc, if_pos]
          rw [hred]
          refine ⟨?_, ?_⟩
          · intro r hr
            rcases List.mem_cons.mp hr with rfl | hr2
            · refine ⟨by simp, ?_⟩
              rw [List.chain'_cons]
              exact ⟨hsc, (ih1 (y :: ys) (List.mem_cons_self _ _)).2⟩
            · exact ih1 r (List.mem_cons_of_mem _ hr2)
          · have hlast : ∀ d : StratLap,
                (x :: y :: ys).getLastD d = (y :: ys).getLastD d := by
              intro d
              rw [List.getLastD_cons, List.getLastD_cons, List.getLastD_cons]
            rcases List.chain'_cons'.mp ih2 with ⟨hhead, hchain⟩
            refine List.chain'_cons'.mpr ⟨?_, hchain⟩
            intro b hb
            have := hhead b hb
            rw [hlast]
            exact this
        | false =>
          have hred : stintCons x ((y :: ys) :: rest)
              = [x] :: (y :: ys) :: rest := by
            simp only [stintCons, hsc]
            rw [if_neg (by simp)]
          rw [hred]
          refine ⟨?_, ?_⟩
          · intro r hr
            rcases List.mem_cons.mp hr with rfl | hr2
            · exact ⟨by simp, List.chain'_singleton x⟩
            · exact ih1 r hr2
          · rw [List.chain'_cons]
            refine ⟨?_, ih2⟩
            simpa using hsc

/-- C6 counterexample: with compounds SOFT, MEDIUM, SOFT the scan produces
three stints, but the strategy statistics compute the pit-stop count as
the number of distinct compounds minus one, giving 1 instead of the
claimed stints-minus-one value 2. -/
theorem pit_stop_count_counterexample :
    (stintRuns exReuse).length = 3
    ∧ pitStops exReuse = 1
    ∧ pitStops exReuse ≠ ((stintRuns exReuse).length : ℤ) - 1 := by
  refine ⟨by decide, by decide, by decide⟩

/-- C6 amended: the stints obtained by opening a new stint at the first
lap and at every lap whose compound fails to continue the previous lap's
compound partition the driver's scanned laps exactly — their concatenation
is the original lap list, every stint is nonempty and internally
same-compound, and adjacent stints break the compound — while the reported
pit-stop count equals the number of distinct non-null compounds minus one,
which matches stints-minus-one only when no compound is reused. -/
theorem stint_partition (laps : List StratLap) :
    (stintRuns laps).flatten = laps
    ∧ (∀ r ∈ stintRuns laps, r ≠ []
        ∧ r.Chain' (fun a b => sameC a.compound b.compound = true))
    ∧ (stintRuns laps).Chain' (fun r1 r2 =>
        sameC (r1.getLastD { lap := 0, compound := none }).compound
          ((r2.headD { lap := 0, compound := none }).compound) = false)
    ∧ pitStops laps = ((distinctCompounds laps).length : ℤ) - 1 :=
  ⟨stintRuns_flatten laps, (stintRuns_ok laps).1, (stintRuns_ok laps).2, rfl⟩

/-- Witness for C6 amended: on the compound-reuse fixture the stints
flatten back to the laps and the first stint is nonempty. -/
theorem stint_partition_witness :
    (stintRuns exReuse).flatten = exReuse
    ∧ [{ lap := 1, compound := some ("SOFT") }] ≠ ([] : List StratLap) :=
  ⟨(stint_partition exReuse).1,
   ((stint_partition exReuse).2.1 [{ lap := 1, compound := some ("SOFT") }]
     (by decide)).1⟩

theorem argminOpt_spec (l : List (String × Option ℚ)) :
    ∀ best d v, argminOpt best l = some (d, v) →
      ((best = some (d, v) ∨ (d, some v) ∈ l)
        ∧ (∀ b0 v0, best = some (b0, v0) → v ≤ v0)
        ∧ ∀ d0 w, (d0, some w) ∈ l → v ≤ w) := by
  induction l with
  | nil =>
    intro best d v h
    cases best with
    | none => exact absurd h (by simp [argminOpt])
    | some p =>
      have h2 : some p = some (d, v) := h
      refine ⟨Or.inl h2, ?_, by simp⟩
      rintro b0 v0 heq
      have h3 : (b0, v0) = (d, v) := Option.some.inj (heq ▸ h2)
      exact le_of_eq (congrArg Prod.snd h3).symm
  | cons p rest ih =>
    intro best d v h
    match p with
    | (d1, none) =>
      rw [show argminOpt best ((d1, none) :: rest) = argminOpt best rest
        from by cases best <;> rfl] at h
      obtain ⟨hmem, hbest, hall⟩ := ih best d v h
      refine ⟨?_, hbest, ?_⟩
      · rcases hmem with h1 | h1
        · exact Or.inl h1
        · exact Or.inr (List.mem_cons_of_mem _ h1)
      · intro d0 w hw
        rcases List.mem_cons.mp hw with heq | h2
        · exact absurd (congrArg Prod.snd heq) (by simp)
        · exact hall d0 w h2
    | (d1, some w1) =>
      match best with
      | none =>
        rw [show argminOpt none ((d1, some w1) :: rest)
          = argminOpt (some (d1, w1)) rest from rfl] at h
        obtain ⟨hmem, hbest, hall⟩ := ih (some (d1, w1)) d v h
        refine ⟨?_, by simp, ?_⟩
        · rcases hmem with h1 | h1
          · have hd : d1 = d := congrArg Prod.fst (Option.some.inj h1)
            have hv : w1 = v := congrArg Prod.snd (Option.some.inj h1)
            exact Or.inr (by rw [← hd, ← hv]; exact List.mem_cons_self _ _)
          · exact Or.inr (List.mem_cons_of_mem _ h1)
        · intro d0 w hw
          rcases List.mem_cons.mp hw with heq | h2
          · have hww : w1 = w :=
              (Option.some.inj (congrArg Prod.snd heq)).symm
            rw [← hww]
            exact hbest d1 w1 rfl
          · exact hall d0 w h2
      | some (b, v0) =>
        rw [show argminOpt (some (b, v0)) ((d1, some w1) :: rest)
          = argminOpt (if w1 < v0 then some (d1, w1) else some (b, v0)) rest
          from rfl] at h
        by_cases hlt : w1 < v0
        · rw [if_pos hlt] at h
          obtain ⟨hmem, hbest, hall⟩ := ih (some (d1, w1)) d v h
          have hvw : v ≤ w1 := hbest d1 w1 rfl
          refine ⟨?_, ?_, ?_⟩
          · rcases hmem with h1 | h1
            · have hd : d1 = d := congrArg Prod.fst (Option.some.inj h1)
              have hv : w1 = v := congrArg Prod.snd (Option.some.inj h1)
              exact Or.inr (by rw [← hd, ← hv]; exact List.mem_cons_self _ _)
            · exact Or.inr (List.mem_cons_of_mem _ h1)
          · rintro b0 vb heq
            have : v0 = vb := congrArg Prod.snd (Option.some.inj heq)
            rw [← this]
            exact le_trans hvw (le_of_lt hlt)
          · intro d0 w hw
            rcases List.mem_cons.mp hw with heq | h2
            · have hww : w1 = w :=
                (Option.some.inj (congrArg Prod.snd heq)).symm
              rw [← hww]
              exact hvw
            · exact hall d0 w h2
        · rw [if_neg hlt] at h
          obtain ⟨hmem, hbest, hall⟩ := ih (some (b, v0)) d v h
          have hvv0 : v ≤ v0 := hbest b v0 rfl
          refine ⟨?_, ?_, ?_⟩
          · rcases hmem with h1 | h1
            · exact Or.inl h1
            · exact Or.inr (List.mem_cons_of_mem _ h1)
          · rintro b0 vb heq
            have : v0 = vb := congrArg Prod.snd (Option.some.inj heq)
            rw [← this]
            exact hvv0
          · intro d0 w hw
            rcases List.mem_cons.mp hw with heq | h2
            · have hww : w1 = w :=
                (Option.some.inj (congrArg Prod.snd heq)).symm
              rw [← hww]
              exact le_trans hvv0 (le_of_not_lt hlt)
            · exact hall d0 w h2

theorem argminOpt_isSome (l : List (String × Option ℚ)) :
    ∀ best, (best.isSome ∨ ∃ p ∈ l, (p.2).isSome) →
      (argminOpt best l).isSome := by
  induction l with
  | nil =>
    intro best h
    rcases h with h | ⟨p, hp, _⟩
    · cases best with
      | none => simp at h
      | some b => exact h
    · exact absurd hp (List.not_mem_nil p)
  | cons p rest ih =>
    intro best h
    match p with
    | (d1, none) =>
      rw [show argminOpt best ((d1, none) :: rest) = argminOpt best rest
        from by cases best <;> rfl]
      apply ih
      rcases h with h | ⟨q, hq, hqs⟩
      · exact Or.inl h
      · rcases List.mem_cons.mp hq with rfl | h2
        · simp at hqs
        · exact Or.inr ⟨q, h2, hqs⟩
    | (d1, some w1) =>
      match best with
      | none =>
        rw [show argminOpt none ((d1, some w1) :: rest)
          = argminOpt (some (d1, w1)) rest from rfl]
        exact ih _ (Or.inl rfl)
      | some (b, v0) =>
        rw [show argminOpt (some (b, v0)) ((d1, some w1) :: rest)
          = argminOpt (if w1 < v0 then some (d1, w1) else some (b, v0)) rest
          from rfl]
        apply ih
        by_cases hlt : w1 < v0
        · rw [if_pos hlt]; exact Or.inl rfl
        · rw [if_neg hlt]; exact Or.inl rfl

theorem sampleVar_isSome_iff (xs : List ℚ) :
    (sampleVar xs).isSome ↔ 2 ≤ xs.length := by
  rw [sampleVar]
  by_cases hl : xs.length < 2
  · rw [if_pos hl]
    simp only [Option.isSome_none, Bool.false_eq_true, false_iff]
    omega
  · rw [if_neg hl]
    simp only [Option.isSome_some, true_iff]
    omega

theorem stdSeries_eq (rows : List SRow) :
    stdSeries rows
      = (summaryDrivers rows).map
          (fun d => (d, sampleVar (validTimes rows d))) := rfl

/-- C7: whenever some driver has at least two valid laps, the
`most_consistent` selection yields a driver whose sample deviation is
defined (hence who has at least two valid laps — drivers with fewer are
excluded from the ranking, and their presence cannot break the total
selection function) and whose sample standard deviation is less than or
equal to that of every driver with a defined deviation. -/
theorem most_consistent_spec (rows : List SRow)
    (h : ∃ d0 ∈ summaryDrivers rows, 2 ≤ (validTimes rows d0).length) :
    ∃ d v, mostConsistent rows = some (d, v)
      ∧ sampleVar (validTimes rows d) = some v
      ∧ 2 ≤ (validTimes rows d).length
      ∧ ∀ d0 w, d0 ∈ summaryDrivers rows →
          sampleVar (validTimes rows d0) = some w →
          v ≤ w ∧ Real.sqrt (v : ℝ) ≤ Real.sqrt (w : ℝ) := by
  obtain ⟨d0, hd0, hlen0⟩ := h
  have hsome : (mostConsistent rows).isSome := by
    apply argminOpt_isSome (stdSeries rows) none
    refine Or.inr ⟨(d0, sampleVar (validTimes rows d0)), ?_, ?_⟩
    · rw [stdSeries_eq]
      exact List.mem_map.mpr ⟨d0, hd0, rfl⟩
    · exact (sampleVar_isSome_iff _).mpr hlen0
  obtain ⟨p, hp⟩ := Option.isSome_iff_exists.mp hsome
  obtain ⟨d, v⟩ := p
  obtain ⟨hmem, _, hall⟩ := argminOpt_spec (stdSeries rows) none d v hp
  have hdv : (d, some v) ∈ stdSeries rows := by
    rcases hmem with h1 | h1
    · exact absurd h1 (by simp)
    · exact h1
  obtain ⟨d1, _, heq⟩ := List.mem_map.mp (stdSeries_eq rows ▸ hdv)
  have hd1 : d1 = d := congrArg Prod.fst heq
  have hvar : sampleVar (validTimes rows d) = some v := by
    rw [← hd1]
    exact congrArg Prod.snd heq
  refine ⟨d, v, hp, hvar, ?_, ?_⟩
  · exact (sampleVar_isSome_iff _).mp (by rw [hvar]; rfl)
  · intro d2 w hd2 hw
    have hmem2 : (d2, some w) ∈ stdSeries rows := by
      rw [stdSeries_eq]
      exact List.mem_map.mpr ⟨d2, hd2, by rw [hw]⟩
    have hvw : v ≤ w := hall d2 w hmem2
    exact ⟨hvw, Real.sqrt_le_sqrt (by exact_mod_cast hvw)⟩

/-- Witness for C7: on the fixture, a most-consistent driver with at least
two valid laps and minimal deviation exists. -/
theorem most_consistent_spec_witness :
    ∃ d v, mostConsistent exSummary = some (d, v)
      ∧ sampleVar (validTimes exSummary d) = some v
      ∧ 2 ≤ (validTimes exSummary d).length
      ∧ ∀ d0 w, d0 ∈ summaryDrivers exSummary →
          sampleVar (validTimes exSummary d0) = some w →
          v ≤ w ∧ Real.sqrt (v : ℝ) ≤ Real.sqrt (w : ℝ) :=
  most_consistent_spec exSummary ⟨"A", by decide, by decide⟩

theorem cliffGo_eq_none (fresh : ℚ) :
    ∀ (xs : List ℚ) (i : ℕ), cliffGo fresh i xs = none ↔
      ∀ j < xs.length, xs.getD j 0 ≤ fresh + 1 := by
  intro xs
  induction xs with
  | nil => intro i; simp [cliffGo]
  | cons x xs ih =>
    intro i
    rw [cliffGo]
    by_cases hx : fresh + 1 < x
    · rw [if_pos hx]
      constructor
      · intro h
        exact Option.noConfusion h
      · intro h
        have := h 0 (by simp)
        simp only [List.getD_cons_zero] at this
        exact absurd hx (not_lt.mpr this)
    · rw [if_neg hx, ih (i + 1)]
      constructor
      · intro h j hj
        match j with
        | 0 => simpa using le_of_not_lt hx
        | Nat.succ k =>
          rw [List.getD_cons_succ]
          exact h k (by simpa [Nat.succ_lt_succ_iff] using hj)
      · intro h j hj
        have := h (j + 1) (by simpa [Nat.succ_lt_succ_iff] using hj)
        simpa using this

theorem cliffGo_eq_some (fresh : ℚ) :
    ∀ (xs : List ℚ) (i m : ℕ), cliffGo fresh i xs = some m ↔
      (i ≤ m ∧ m - i < xs.length ∧ fresh + 1 < xs.getD (m - i) 0
        ∧ ∀ j < m - i, xs.getD j 0 ≤ fresh + 1) := by
  intro xs
  induction xs with
  | nil => intro i m; simp [cliffGo]
  | cons x xs ih =>
    intro i m
    rw [cliffGo]
    by_cases hx : fresh + 1 < x
    · rw [if_pos hx]
      constructor
      · intro h
        have hm : i = m := Option.some.inj h
        subst hm
        refine ⟨le_refl _, ?_, ?_, ?_⟩
        · simp
        · simpa using hx
        · intro j hj
          omega
      · rintro ⟨him, _, _, hall⟩
        have hmi : m = i := by
          by_contra hne
          have h1 : 0 < m - i := by omega
          have := hall 0 h1
          simp only [List.getD_cons_zero] at this
          exact absurd hx (not_lt.mpr this)
        rw [hmi]
    · rw [if_neg hx, ih (i + 1) m]
      constructor
      · rintro ⟨him, hlt, hgt, hall⟩
        have hmi : m - i = (m - (i + 1)) + 1 := by omega
        refine ⟨by omega, ?_, ?_, ?_⟩
        · simp only [List.length_cons]
          omega
        · rw [hmi, List.getD_cons_succ]
          exact hgt
        · intro j hj
          rw [hmi] at hj
          match j with
          | 0 => simpa using le_of_not_lt hx
          | Nat.succ k =>
            rw [List.getD_cons_succ]
            exact hall k (by omega)
      · rintro ⟨him, hlt, hgt, hall⟩
        have him2 : i + 1 ≤ m := by
          by_contra h2
          have hmi0 : m = i := by omega
          rw [hmi0] at hgt
          simp only [Nat.sub_self, List.getD_cons_zero] at hgt
          exact absurd hgt hx
        have hmi : m - i = (m - (i + 1)) + 1 := by omega
        refine ⟨him2, ?_, ?_, ?_⟩
        · simp only [List.length_cons] at hlt
          omega
        · rw [hmi, List.getD_cons_succ] at hgt
          exact hgt
        · intro j hj
          have := hall (j + 1) (by omega)
          rw [List.getD_cons_succ] at this
          exact this

theorem headD_eq_getD (l : List ℚ) (d : ℚ) : l.headD d = l.getD 0 d := by
  cases l <;> rfl

theorem getLastD_eq_getD (l : List ℚ) :
    ∀ d : ℚ, l.getLastD d = l.getD (l.length - 1) d := by
  induction l with
  | nil => intro d; rfl
  | cons x xs ih =>
    intro d
    cases hxs : xs with
    | nil => rfl
    | cons y ys =>
      rw [List.getLastD_cons, ← hxs, ih x]
      subst hxs
      simp only [List.length_cons]
      rw [show ys.length + 1 + 1 - 1 = ys.length + 1 from rfl,
        List.getD_cons_succ,
        show ys.length + 1 - 1 = ys.length from rfl]
      rw [List.getD_eq_getElem _ _ (by simp),
        List.getD_eq_getElem _ _ (by simp)]

theorem getD_replicate (n j : ℕ) (c : ℚ) (h : j < n) :
    (List.replicate n c).getD j 0 = c := by
  rw [List.getD_eq_getElem _ _ (by simpa using h)]
  exact List.getElem_replicate ..

/-- C5: the skill adjustment scales the whole predicted vector uniformly
by 0.995 (championship contender), 1.005 (rookie) or 1 (average); every
reported statistic is a function of the adjusted vector `p` alone —
fresh-tyre time `p[0]`, end-of-stint time `p[n-1]`, total degradation
`p[n-1] - p[0]`, average degradation over `stint_length`, and the
performance cliff is the first one-based lap exceeding `p[0] + 1`, or
none; a constant model output 85 under the rookie profile yields the
constant curve 85.425 with zero total degradation and no cliff. -/
theorem predictor_spec :
    (∀ preds : List ℚ,
      adjustPredictions DriverProfile.championshipContender preds
          = preds.map (fun x => x * (995 / 1000))
      ∧ adjustPredictions DriverProfile.rookie preds
          = preds.map (fun x => x * (1005 / 1000))
      ∧ adjustPredictions DriverProfile.average preds = preds)
    ∧ (∀ p : List ℚ,
        freshTyreTime p = p.getD 0 0
        ∧ endOfStintTime p = p.getD (p.length - 1) 0
        ∧ totalDegradation p = p.getD (p.length - 1) 0 - p.getD 0 0
        ∧ ∀ n : ℕ, avgDegradationPerLap p n
            = (p.getD (p.length - 1) 0 - p.getD 0 0) / n)
    ∧ (∀ (p : List ℚ) (m : ℕ), performanceCliff p = some m ↔
        (1 ≤ m ∧ m - 1 < p.length ∧ freshTyreTime p + 1 < p.getD (m - 1) 0
          ∧ ∀ j < m - 1, p.getD j 0 ≤ freshTyreTime p + 1))
    ∧ (∀ p : List ℚ, performanceCliff p = none ↔
        ∀ j < p.length, p.getD j 0 ≤ freshTyreTime p + 1)
    ∧ adjustPredictions DriverProfile.rookie (List.replicate 20 85)
        = List.replicate 20 (85425 / 1000)
    ∧ totalDegradation (List.replicate 20 (85425 / 1000)) = 0
    ∧ performanceCliff (List.replicate 20 (85425 / 1000)) = none := by
  have hstats : ∀ p : List ℚ,
      freshTyreTime p = p.getD 0 0
      ∧ endOfStintTime p = p.getD (p.length - 1) 0 := by
    intro p
    exact ⟨headD_eq_getD p 0, getLastD_eq_getD p 0⟩
  refine ⟨?_, ?_, ?_, ?_, ?_, ?_, ?_⟩
  · intro preds
    refine ⟨rfl, rfl, ?_⟩
    simp [adjustPredictions, skillFactor]
  · intro p
    obtain ⟨h1, h2⟩ := hstats p
    refine ⟨h1, h2, ?_, ?_⟩
    · rw [totalDegradation, h1, h2]
    · intro n
      rw [avgDegradationPerLap, totalDegradation, h1, h2]
  · intro p m
    rw [performanceCliff, cliffGo_eq_some]
  · intro p
    rw [performanceCliff, cliffGo_eq_none]
  · rw [adjustPredictions, List.map_replicate]
    norm_num [skillFactor]
  · obtain ⟨h1, h2⟩ := hstats (List.replicate 20 (85425 / 1000))
    rw [totalDegradation, h1, h2, List.length_replicate,
      getD_replicate _ _ _ (by norm_num), getD_replicate _ _ _ (by norm_num)]
    ring
  · rw [performanceCliff, cliffGo_eq_none]
    intro j hj
    simp only [List.length_replicate] at hj
    rw [getD_replicate _ _ _ hj,
      (hstats (List.replicate 20 (85425 / 1000))).1,
      getD_replicate _ _ _ (by norm_num)]
    norm_num

/-- Witness for C5: for the adjusted curve 85, 87 the cliff
characterization reports lap 2, the first lap more than one second above
the fresh-tyre time. -/
theorem predictor_spec_witness :
    performanceCliff [85, 87] = some 2 :=
  (predictor_spec.2.2.1 [85, 87] 2).mpr
    ⟨by norm_num, by norm_num, by norm_num [freshTyreTime], by
      intro j hj
      have hj0 : j = 0 := by omega
      subst hj0
      norm_num [freshTyreTime]⟩

theorem getD_map_cast (p : List ℚ) (f : ℚ → ℝ) (i : ℕ)
    (hi : i < p.length) : (p.map f).getD i 0 = f (p.getD i 0) := by
  rw [List.getD_eq_getElem _ _ (by rw [List.length_map]; exact hi),
    List.getD_eq_getElem _ _ hi, List.getElem_map]

theorem getD_reverse (l : List ℝ) (i : ℕ) (hi : i < l.length) :
    l.reverse.getD i 0 = l.getD (l.length - 1 - i) 0 := by
  rw [List.getD_eq_getElem _ _ (by rw [List.length_reverse]; exact hi),
    List.getD_eq_getElem _ _ (by omega), List.getElem_reverse]

theorem popVar_nonneg (p : List ℚ) : 0 ≤ popVar p := by
  rw [popVar]
  apply div_nonneg
  · apply List.sum_nonneg
    intro x hx
    obtain ⟨y, _, rfl⟩ := List.mem_map.mp hx
    exact sq_nonneg _
  · exact Nat.cast_nonneg _

/-- C8: the confidence band half-width is one tenth of the population
standard deviation of the adjusted vector — a nonnegative constant whose
square is `popVar / 100` — and it offsets every point of the curve by the
same amount above (upper edge) and below (lower edge, reversed). -/
theorem confidence_band_spec (p : List ℚ) :
    predictionStd p = (1 / 10 : ℝ) * Real.sqrt (popVar p)
    ∧ 0 ≤ predictionStd p
    ∧ predictionStd p ^ 2 = (1 / 100 : ℝ) * (popVar p : ℝ)
    ∧ ∀ i, i < p.length →
        (bandUpperY p).getD i 0 = ((p.getD i 0 : ℚ) : ℝ) + predictionStd p
        ∧ (bandLowerY p).getD i 0
          = ((p.getD (p.length - 1 - i) 0 : ℚ) : ℝ) - predictionStd p := by
  have hv : (0 : ℝ) ≤ ((popVar p : ℚ) : ℝ) := by
    exact_mod_cast popVar_nonneg p
  refine ⟨mul_comm _ _, ?_, ?_, ?_⟩
  · exact mul_nonneg (Real.sqrt_nonneg _) (by norm_num)
  · rw [predictionStd, mul_pow, Real.sq_sqrt hv]
    ring
  · intro i hi
    constructor
    · rw [bandUpperY, getD_map_cast _ _ _ hi]
    · rw [bandLowerY, getD_reverse _ _ (by rw [List.length_map]; exact hi),
        List.length_map, getD_map_cast _ _ _ (by omega)]

/-- Witness for C8: at the two-point curve 1, 3 the upper band point 0 is
the curve value plus the constant half-width, whose square is one
hundredth of the population variance. -/
theorem confidence_band_spec_witness :
    (bandUpperY [1, 3]).getD 0 0 = ((1 : ℚ) : ℝ) + predictionStd [1, 3]
    ∧ predictionStd [1, 3] ^ 2 = (1 / 100 : ℝ) * (popVar [1, 3] : ℝ) :=
  ⟨by
    have h := ((confidence_band_spec [1, 3]).2.2.2 0 (by norm_num)).1
    simpa using h,
   (confidence_band_spec [1, 3]).2.2.1⟩

